import Mathlib

/-!
Verification of the crossword CSP solver (`generate.py`, class `CrosswordCreator`).

The Python source is shallowly embedded: the mutable domain store becomes a
function from variables to candidate lists, the assignment dictionary becomes an
association list threaded through the search, and the two worklist/recursive
procedures (`ac3` and `backtrack`) are given fuel together with proofs that the
fuel is never exhausted, so that every embedded function is executable and
structurally recursive.
-/

set_option autoImplicit false

namespace CrosswordCSP

/-- The direction of a slot, `Variable.ACROSS` / `Variable.DOWN` in the source. -/
inductive Direction where
  | across
  | down
deriving DecidableEq, Repr

/-- A crossword slot: starting row `i`, starting column `j`, `length`, and
`direction` (class `Variable` of the puzzle model). Equality is structural. -/
structure Slot where
  i : Nat
  j : Nat
  length : Nat
  direction : Direction
deriving DecidableEq, Repr

/-- A vocabulary word: an immutable sequence of letters. -/
abbrev Word := List Char

/-- Character indexing `w[i]`; in-range in every reachable call of the source
(a default is returned out of range, where Python would raise). -/
def charAt (w : Word) (i : Nat) : Char :=
  w.getD i ' '

/-- The domain store `self.domains`: each variable's current candidate list. -/
abbrev Domains := Slot → List Word

/-- Pointwise update of the domain store (in-place mutation of one entry). -/
def updateDom (d : Domains) (x : Slot) (l : List Word) : Domains :=
  fun v => if v = x then l else d v

theorem updateDom_self (d : Domains) (x : Slot) (l : List Word) :
    updateDom d x l x = l := by
  simp [updateDom]

theorem updateDom_other (d : Domains) (x : Slot) (l : List Word) {v : Slot}
    (hv : v ≠ x) : updateDom d x l v = d v := by
  simp [updateDom, hv]

/-- The assignment dictionary: key/value pairs in insertion order. -/
abbrev Assign := List (Slot × Word)

/-- `var in assignment` on the dictionary's keys. -/
def containsKey (a : Assign) (v : Slot) : Bool :=
  a.any (fun p => p.1 == v)

/-- `assignment[var] = val`: overwrite the entry if the key is present,
otherwise append the new pair (Python dict assignment). -/
def dictInsert (a : Assign) (v : Slot) (w : Word) : Assign :=
  if containsKey a v then a.map (fun p => if p.1 == v then (v, w) else p)
  else a ++ [(v, w)]

/-- `del assignment[var]`: drop the entry with the given key. -/
def dictErase (a : Assign) (v : Slot) : Assign :=
  a.filter (fun p => !(p.1 == v))

/-- The CSP instance: the variables, the vocabulary, and the puzzle model's
overlap table `self.crossword.overlaps`. -/
structure CSP where
  vars : List Slot
  words : List Word
  overlaps : Slot → Slot → Option (Nat × Nat)

/-- Modelled from the spec: `neighbors(x)` is supplied by the puzzle-model
collaborator (`crossword.py`, not part of the core source) as the set of
variables sharing a non-trivial overlap with `x`. -/
def CSP.neighbors (csp : CSP) (x : Slot) : List Slot :=
  csp.vars.filter (fun y => !(y == x) && (csp.overlaps x y).isSome)

/-- The initial domain store: every variable is seeded with the full
vocabulary (`self.domains` built in `__init__`). -/
def initialDomains (csp : CSP) : Domains :=
  fun _ => csp.words

/-- `enforce_node_consistency`: for each variable, remove every candidate whose
length differs from the variable's length (the removal loop over a copy of the
set keeps exactly the length-matching candidates). -/
def enforce_node_consistency (d : Domains) : Domains :=
  fun v => (d v).filter (fun w => v.length == w.length)

/-- Whether candidate `wx` of `x` is supported at overlap `(i, j)` by some
candidate of `y` (the inner for/else loop of `revise`). -/
def hasSupport (d : Domains) (y : Slot) (i j : Nat) (wx : Word) : Bool :=
  (d y).any (fun wy => charAt wx i == charAt wy j)

/-- `revise(x, y)`: if the pair has no overlap, return `False` untouched;
otherwise remove from `domain[x]` every unsupported candidate, returning
whether anything was removed. -/
def revise (csp : CSP) (d : Domains) (x y : Slot) : Domains × Bool :=
  match csp.overlaps x y with
  | none => (d, false)
  | some (i, j) =>
    (updateDom d x ((d x).filter (fun wx => hasSupport d y i j wx)),
     (d x).any (fun wx => !(hasSupport d y i j wx)))

/-- The initial worklist of `ac3` when called with `arcs=None` (as `solve`
does): all ordered pairs of distinct variables. -/
def allArcs (csp : CSP) : List (Slot × Slot) :=
  csp.vars.flatMap (fun x => (csp.vars.filter (fun y => !(x == y))).map (fun y => (x, y)))

/-- Total number of candidates over all variables (termination measure). -/
def totalSize (csp : CSP) (d : Domains) : Nat :=
  (csp.vars.map (fun v => (d v).length)).sum

/-- The `ac3` worklist loop, with fuel. `none` means the fuel ran out, which
`ac3F_ne_none` below proves never happens for the fuel chosen in `ac3`. -/
def ac3F (csp : CSP) : Nat → Domains → List (Slot × Slot) → Option (Domains × Bool)
  | _, d, [] => some (d, true)
  | 0, _, _ :: _ => none
  | fuel + 1, d, (X, Y) :: rest =>
    if (revise csp d X Y).2 then
      if ((revise csp d X Y).1 X).length = 0 then some ((revise csp d X Y).1, false)
      else ac3F csp fuel ((revise csp d X Y).1)
        (rest ++ ((csp.neighbors X).filter (fun Z => !(Z == Y))).map (fun Z => (Z, X)))
    else ac3F csp fuel d rest

theorem length_filter_lt_of_mem {α : Type} {p : α → Bool} {l : List α} {x : α}
    (hx : x ∈ l) (hp : p x = false) : (l.filter p).length < l.length := by
  induction l with
  | nil => cases hx
  | cons a l ih =>
    rcases List.mem_cons.mp hx with h | h
    · subst h
      simp only [List.filter, hp]
      exact Nat.lt_succ_of_le (List.length_filter_le p l)
    · simp only [List.filter, List.length_cons]
      cases p a <;> simp only [List.length_cons]
      · exact Nat.lt_succ_of_lt (ih h)
      · exact Nat.succ_lt_succ (ih h)

theorem mapSum_le {α : Type} {f g : α → Nat} (l : List α)
    (h : ∀ v, f v ≤ g v) : (l.map f).sum ≤ (l.map g).sum := by
  induction l with
  | nil => simp
  | cons a l ih => simpa using Nat.add_le_add (h a) ih

theorem mapSum_lt {α : Type} {f g : α → Nat} {l : List α} {x : α}
    (hx : x ∈ l) (h : ∀ v, f v ≤ g v) (hlt : f x < g x) :
    (l.map f).sum < (l.map g).sum := by
  induction l with
  | nil => cases hx
  | cons a l ih =>
    rcases List.mem_cons.mp hx with h' | h'
    · subst h'
      simpa using Nat.add_lt_add_of_lt_of_le hlt (mapSum_le l h)
    · simpa using Nat.add_lt_add_of_le_of_lt (h a) (ih h')

theorem revise_shrinks (csp : CSP) (d : Domains) (x y v : Slot) :
    ((revise csp d x y).1 v).length ≤ (d v).length := by
  unfold revise
  cases h : csp.overlaps x y with
  | none => simp
  | some p =>
    obtain ⟨i, j⟩ := p
    simp only [updateDom]
    by_cases hv : v = x
    · subst hv
      simp [List.length_filter_le]
    · simp [hv]

theorem revise_totalSize_lt (csp : CSP) (d : Domains) {x y : Slot}
    (hx : x ∈ csp.vars) (hrev : (revise csp d x y).2 = true) :
    totalSize csp ((revise csp d x y).1) < totalSize csp d := by
  unfold totalSize
  refine mapSum_lt hx (fun v => revise_shrinks csp d x y v) ?_
  unfold revise at hrev ⊢
  cases h : csp.overlaps x y with
  | none => rw [h] at hrev; simp at hrev
  | some p =>
    obtain ⟨i, j⟩ := p
    rw [h] at hrev
    simp only at hrev
    simp only [updateDom, if_pos rfl]
    rw [List.any_eq_true] at hrev
    obtain ⟨wx, hwx, hns⟩ := hrev
    rw [Bool.not_eq_true'] at hns
    exact length_filter_lt_of_mem hwx hns

theorem neighbors_mem (csp : CSP) {x z : Slot} (h : z ∈ csp.neighbors x) :
    z ∈ csp.vars :=
  (List.mem_filter.mp h).1

theorem neighbors_length_le (csp : CSP) (x : Slot) :
    (csp.neighbors x).length ≤ csp.vars.length :=
  List.length_filter_le _ _

theorem allArcs_fst_mem (csp : CSP) {p : Slot × Slot} (h : p ∈ allArcs csp) :
    p.1 ∈ csp.vars := by
  unfold allArcs at h
  rw [List.mem_flatMap] at h
  obtain ⟨x, hx, hp⟩ := h
  rw [List.mem_map] at hp
  obtain ⟨y, _, rfl⟩ := hp
  exact hx

theorem ac3F_ne_none (csp : CSP) :
    ∀ (fuel : Nat) (d : Domains) (q : List (Slot × Slot)),
      (∀ p ∈ q, p.1 ∈ csp.vars) →
      q.length + totalSize csp d * (csp.vars.length + 1) < fuel →
      ac3F csp fuel d q ≠ none := by
  intro fuel
  induction fuel with
  | zero => intro d q _ hlt; omega
  | succ fuel ih =>
    intro d q hq hlt
    match q with
    | [] => simp [ac3F]
    | (X, Y) :: rest =>
      rw [ac3F]
      by_cases hrev : (revise csp d X Y).2 = true
      · rw [if_pos hrev]
        by_cases hemp : ((revise csp d X Y).1 X).length = 0
        · rw [if_pos hemp]; simp
        · rw [if_neg hemp]
          have hX : X ∈ csp.vars := hq (X, Y) (List.mem_cons_self _ _)
          have hts : totalSize csp ((revise csp d X Y).1) < totalSize csp d :=
            revise_totalSize_lt csp d hX hrev
          refine ih _ _ ?_ ?_
          · intro p hp
            rcases List.mem_append.mp hp with h | h
            · exact hq p (List.mem_cons_of_mem _ h)
            · rw [List.mem_map] at h
              obtain ⟨Z, hZ, rfl⟩ := h
              exact neighbors_mem csp (List.mem_filter.mp hZ).1
          · have h1 : (((csp.neighbors X).filter (fun Z => !(Z == Y))).map
                (fun Z => (Z, X))).length ≤ csp.vars.length := by
              rw [List.length_map]
              exact Nat.le_trans (List.length_filter_le _ _) (neighbors_length_le csp X)
            have h2 : totalSize csp ((revise csp d X Y).1) * (csp.vars.length + 1) +
                (csp.vars.length + 1) ≤ totalSize csp d * (csp.vars.length + 1) :=
              by
                have := Nat.succ_le_of_lt hts
                calc totalSize csp ((revise csp d X Y).1) * (csp.vars.length + 1) +
                    (csp.vars.length + 1)
                    = (totalSize csp ((revise csp d X Y).1) + 1) * (csp.vars.length + 1) := by ring
                  _ ≤ totalSize csp d * (csp.vars.length + 1) :=
                      Nat.mul_le_mul_right _ this
            rw [List.length_append]
            simp only [List.length_cons] at hlt
            omega
      · rw [if_neg hrev]
        refine ih _ _ (fun p hp => hq p (List.mem_cons_of_mem _ hp)) ?_
        simp only [List.length_cons] at hlt
        omega

/-- The fuel with which `ac3F` provably completes. -/
def ac3Fuel (csp : CSP) (d : Domains) : Nat :=
  (allArcs csp).length + totalSize csp d * (csp.vars.length + 1) + 1

theorem ac3F_isSome (csp : CSP) (d : Domains) :
    (ac3F csp (ac3Fuel csp d) d (allArcs csp)).isSome = true := by
  rw [Option.isSome_iff_ne_none]
  exact ac3F_ne_none csp _ d (allArcs csp) (fun p hp => allArcs_fst_mem csp hp)
    (by unfold ac3Fuel; omega)

/-- `ac3()` as called from `solve` (with `arcs=None`): run the worklist loop on
all arcs, returning the final domain store and the boolean result. -/
def ac3 (csp : CSP) (d : Domains) : Domains × Bool :=
  (ac3F csp (ac3Fuel csp d) d (allArcs csp)).get (ac3F_isSome csp d)

/-- `assignment_complete`: every variable of the puzzle has an entry. -/
def assignment_complete (csp : CSP) (a : Assign) : Bool :=
  csp.vars.all (fun v => containsKey a v)

/-- The neighbor check inside `consistent`: `True` when some word in a
neighbor's *domain* disagrees with the assigned word at the overlap indices
(this is what the source tests; the `none` branch is unreachable because every
neighbor overlaps). -/
def violatesNeighbors (csp : CSP) (d : Domains) (key : Slot) (value : Word) : Bool :=
  (csp.neighbors key).any (fun n =>
    match csp.overlaps key n with
    | some (i, j) => (d n).any (fun nval => !(charAt value i == charAt nval j))
    | none => false)

/-- The item loop of `consistent`, carrying the accumulated `value_list`. -/
def consistentAux (csp : CSP) (d : Domains) : List Word → Assign → Bool
  | _, [] => true
  | valueList, (key, value) :: rest =>
    if !(key.length == value.length) then false
    else if value ∈ valueList then false
    else if violatesNeighbors csp d key value then false
    else consistentAux csp d (value :: valueList) rest

/-- `consistent(assignment)`: length check, word-uniqueness check, and the
overlap check of the source (which consults the neighbors' domains). -/
def consistent (csp : CSP) (d : Domains) (a : Assign) : Bool :=
  consistentAux csp d [] a

/-- The keys of a Python dict built by assigning each list element in turn:
first occurrences, in insertion order. -/
def dictKeys (seen : List Word) : List Word → List Word
  | [] => []
  | w :: ws => if w ∈ seen then dictKeys seen ws else w :: dictKeys (w :: seen) ws

/-- The score `order_domain_values` computes for a candidate `w` of `var`:
one increment for every equal word in every neighbor's domain. -/
def lcvScore (csp : CSP) (d : Domains) (var : Slot) (w : Word) : Nat :=
  ((csp.neighbors var).map (fun n => ((d n).filter (fun nval => w == nval)).length)).sum

/-- `order_domain_values(var, assignment)`: the source builds the dict
`values` mapping each candidate to its score (the `if val in assignment`
guard compares a word against the dict's `Variable` keys and never fires),
computes `sorted(values, key=...)` but discards the result, and returns the
dict itself — i.e. its keys in insertion order. -/
def order_domain_values (csp : CSP) (d : Domains) (var : Slot) (_a : Assign) : List Word :=
  ((dictKeys [] (d var)).map (fun w => (w, lcvScore csp d var w))).map Prod.fst

/-- `select_unassigned_variable`: minimum remaining values, ties broken by
maximum degree, further ties by the first candidate encountered. `none`
models the `ValueError` Python's `min` raises when nothing is unassigned. -/
def select_unassigned_variable (csp : CSP) (d : Domains) (a : Assign) : Option Slot :=
  let unassigned := csp.vars.filter (fun v => !(containsKey a v))
  match (unassigned.map (fun v => (d v).length)).min? with
  | none => none
  | some m =>
    let keys := unassigned.filter (fun v => (d v).length == m)
    if keys.length == 1 then keys.head?
    else
      match (keys.map (fun v => (csp.neighbors v).length)).max? with
      | none => none
      | some mx => (keys.filter (fun v => (csp.neighbors v).length == mx)).head?

/-- The candidate loop of `backtrack`, threading the mutable assignment
dictionary: `next` is the recursive call at the current fuel. Results pair the
returned value with the dictionary's state after the call. -/
def tryVals (csp : CSP) (d : Domains) (var : Slot)
    (next : Assign → Option (Option Assign × Assign)) :
    List Word → Assign → Option (Option Assign × Assign)
  | [], a => some (none, a)
  | val :: rest, a =>
    if consistent csp d (dictInsert a var val) then
      match next (dictInsert a var val) with
      | none => none
      | some (some r, a2) => some (some r, a2)
      | some (none, a2) => tryVals csp d var next rest (dictErase a2 var)
    else tryVals csp d var next rest (dictErase (dictInsert a var val) var)

/-- `backtrack(assignment)`, with fuel; `none` means the fuel ran out, which
`backtrackF_ne_none` below proves never happens for the fuel chosen in
`backtrackPair`. The second component of a returned pair is the state of the
assignment dictionary when the call returns. -/
def backtrackF (csp : CSP) (d : Domains) : Nat → Assign → Option (Option Assign × Assign)
  | 0, _ => none
  | fuel + 1, a =>
    if assignment_complete csp a then some (some a, a)
    else
      match select_unassigned_variable csp d a with
      | none => some (none, a)
      | some var => tryVals csp d var (backtrackF csp d fuel) (order_domain_values csp d var a) a

/-- Number of still-unassigned variables (fuel measure for `backtrack`). -/
def unassignedCount (csp : CSP) (a : Assign) : Nat :=
  (csp.vars.filter (fun v => !(containsKey a v))).length

theorem head?_some_mem {α : Type} {l : List α} {x : α} (h : l.head? = some x) : x ∈ l := by
  cases l with
  | nil => cases h
  | cons a l => simp only [List.head?] at h; injection h with h; exact h ▸ List.mem_cons_self _ _

theorem select_unassigned_variable_mem {csp : CSP} {d : Domains} {a : Assign} {var : Slot}
    (h : select_unassigned_variable csp d a = some var) :
    var ∈ csp.vars ∧ containsKey a var = false := by
  unfold select_unassigned_variable at h
  simp only at h
  have hun : ∀ v, v ∈ csp.vars.filter (fun v => !(containsKey a v)) →
      v ∈ csp.vars ∧ containsKey a v = false := by
    intro v hv
    have := List.mem_filter.mp hv
    exact ⟨this.1, by simpa using this.2⟩
  split at h
  · cases h
  · split at h
    · exact hun var (List.mem_filter.mp (head?_some_mem h)).1
    · split at h
      · cases h
      · exact hun var (List.mem_filter.mp (List.mem_filter.mp (head?_some_mem h)).1).1

theorem containsKey_false_entries {a : Assign} {var : Slot}
    (h : containsKey a var = false) : ∀ p ∈ a, (p.1 == var) = false := by
  intro p hp
  by_contra hne
  have : containsKey a var = true := by
    unfold containsKey
    rw [List.any_eq_true]
    exact ⟨p, hp, by simpa using hne⟩
  rw [h] at this
  cases this

theorem erase_insert {a : Assign} {var : Slot} (val : Word)
    (h : containsKey a var = false) : dictErase (dictInsert a var val) var = a := by
  unfold dictInsert
  rw [if_neg (by simp [h])]
  unfold dictErase
  rw [List.filter_append]
  have h1 : a.filter (fun p => !(p.1 == var)) = a := by
    rw [List.filter_eq_self]
    intro p hp
    simp [containsKey_false_entries h p hp]
  rw [h1]
  simp

theorem filter_length_mono {α : Type} {p q : α → Bool}
    (himp : ∀ x, q x = true → p x = true) (l : List α) :
    (l.filter q).length ≤ (l.filter p).length := by
  induction l with
  | nil => simp
  | cons a l ih =>
    simp only [List.filter]
    cases hq : q a with
    | true =>
      rw [himp a hq]
      simpa using ih
    | false =>
      cases p a
      · exact ih
      · exact Nat.le_succ_of_le ih

theorem filter_length_lt {α : Type} {p q : α → Bool} {l : List α} {x : α}
    (himp : ∀ y, q y = true → p y = true) (hx : x ∈ l)
    (hpx : p x = true) (hqx : q x = false) :
    (l.filter q).length < (l.filter p).length := by
  induction l with
  | nil => cases hx
  | cons a l ih =>
    simp only [List.filter]
    rcases List.mem_cons.mp hx with h | h
    · subst h
      rw [hpx, hqx]
      simpa using Nat.lt_succ_of_le (filter_length_mono himp l)
    · cases hq : q a with
      | true =>
        rw [himp a hq]
        simpa using Nat.succ_lt_succ (ih h)
      | false =>
        cases p a
        · exact ih h
        · exact Nat.lt_succ_of_lt (ih h)

theorem containsKey_insert {a : Assign} {var v : Slot} (val : Word) :
    containsKey a v = true → containsKey (dictInsert a var val) v = true := by
  intro h
  unfold containsKey at h ⊢
  rw [List.any_eq_true] at h
  obtain ⟨p, hp, hpv⟩ := h
  rw [List.any_eq_true]
  unfold dictInsert
  by_cases hc : containsKey a var = true
  · rw [if_pos hc]
    by_cases hpvar : (p.1 == var) = true
    · refine ⟨(var, val), List.mem_map.mpr ⟨p, hp, by simp [hpvar]⟩, ?_⟩
      have h1 : p.1 = var := by simpa using hpvar
      have h2 : p.1 = v := by simpa using hpv
      simp [← h1, h2]
    · rw [Bool.not_eq_true] at hpvar
      refine ⟨p, List.mem_map.mpr ⟨p, hp, by simp [hpvar]⟩, hpv⟩
  · rw [if_neg hc]
    exact ⟨p, List.mem_append_left _ hp, hpv⟩

theorem containsKey_insert_self (a : Assign) (var : Slot) (val : Word) :
    containsKey (dictInsert a var val) var = true := by
  unfold dictInsert
  by_cases hc : containsKey a var = true
  · rw [if_pos hc]
    unfold containsKey at hc ⊢
    rw [List.any_eq_true] at hc
    obtain ⟨p, hp, hpv⟩ := hc
    rw [List.any_eq_true]
    exact ⟨(var, val), List.mem_map.mpr ⟨p, hp, by simp [hpv]⟩, by simp⟩
  · rw [if_neg hc]
    unfold containsKey
    rw [List.any_eq_true]
    exact ⟨(var, val), List.mem_append_right _ (List.mem_cons_self _ _), by simp⟩

theorem unassignedCount_insert_lt {csp : CSP} {a : Assign} {var : Slot} (val : Word)
    (hvar : var ∈ csp.vars) (hfree : containsKey a var = false) :
    unassignedCount csp (dictInsert a var val) < unassignedCount csp a := by
  unfold unassignedCount
  refine filter_length_lt ?_ hvar (by simp [hfree]) ?_
  · intro y hy
    rw [Bool.not_eq_true'] at hy ⊢
    by_contra hc
    rw [Bool.not_eq_false] at hc
    rw [containsKey_insert val hc] at hy
    cases hy
  · simp [containsKey_insert_self]

theorem tryVals_restore {csp : CSP} {d : Domains} {var : Slot}
    {next : Assign → Option (Option Assign × Assign)}
    (hnext : ∀ b b2, next b = some (none, b2) → b2 = b) :
    ∀ (rest : List Word) (a a2 : Assign), containsKey a var = false →
      tryVals csp d var next rest a = some (none, a2) → a2 = a := by
  intro rest
  induction rest with
  | nil =>
    intro a a2 _ h
    rw [tryVals] at h
    injection h with h
    rw [Prod.mk.injEq] at h
    exact h.2.symm
  | cons val rest ih =>
    intro a a2 hfree h
    rw [tryVals] at h
    by_cases hc : consistent csp d (dictInsert a var val) = true
    · rw [if_pos hc] at h
      cases hn : next (dictInsert a var val) with
      | none => rw [hn] at h; cases h
      | some p =>
        obtain ⟨o, b2⟩ := p
        cases o with
        | some r =>
          rw [hn] at h
          have h' : (some (some r, b2) : Option (Option Assign × Assign)) =
              some (none, a2) := h
          injection h' with h'
          rw [Prod.mk.injEq] at h'
          exact absurd h'.1 (by simp)
        | none =>
          rw [hn] at h
          have h' : tryVals csp d var next rest (dictErase b2 var) = some (none, a2) := h
          have hb2 : b2 = dictInsert a var val := hnext _ _ hn
          rw [hb2, erase_insert val hfree] at h'
          exact ih a a2 hfree h'
    · rw [if_neg hc, erase_insert val hfree] at h
      exact ih a a2 hfree h

theorem backtrackF_restore {csp : CSP} {d : Domains} :
    ∀ (fuel : Nat) (a a2 : Assign),
      backtrackF csp d fuel a = some (none, a2) → a2 = a := by
  intro fuel
  induction fuel with
  | zero => intro a a2 h; cases h
  | succ fuel ih =>
    intro a a2 h
    rw [backtrackF] at h
    by_cases hcmp : assignment_complete csp a = true
    · rw [if_pos hcmp] at h
      injection h with h
      rw [Prod.mk.injEq] at h
      exact absurd h.1 (by simp)
    · rw [if_neg hcmp] at h
      cases hsel : select_unassigned_variable csp d a with
      | none =>
        rw [hsel] at h
        injection h with h
        rw [Prod.mk.injEq] at h
        exact h.2.symm
      | some var =>
        rw [hsel] at h
        exact tryVals_restore (fun b b2 hb => ih b b2 hb) _ a a2
          (select_unassigned_variable_mem hsel).2 h

theorem tryVals_ne_none {csp : CSP} {d : Domains} {var : Slot}
    {next : Assign → Option (Option Assign × Assign)}
    (hnext : ∀ b b2, next b = some (none, b2) → b2 = b) :
    ∀ (rest : List Word) (a : Assign), containsKey a var = false →
      (∀ val, next (dictInsert a var val) ≠ none) →
      tryVals csp d var next rest a ≠ none := by
  intro rest
  induction rest with
  | nil => intro a _ _; rw [tryVals]; simp
  | cons val rest ih =>
    intro a hfree hn
    rw [tryVals]
    by_cases hc : consistent csp d (dictInsert a var val) = true
    · rw [if_pos hc]
      cases hcall : next (dictInsert a var val) with
      | none => exact absurd hcall (hn val)
      | some p =>
        obtain ⟨o, b2⟩ := p
        cases o with
        | some r => simp
        | none =>
          have hb2 : b2 = dictInsert a var val := hnext _ _ hcall
          show tryVals csp d var next rest (dictErase b2 var) ≠ none
          rw [hb2, erase_insert val hfree]
          exact ih a hfree hn
    · rw [if_neg hc, erase_insert val hfree]
      exact ih a hfree hn

theorem backtrackF_ne_none {csp : CSP} {d : Domains} :
    ∀ (fuel : Nat) (a : Assign), unassignedCount csp a < fuel →
      backtrackF csp d fuel a ≠ none := by
  intro fuel
  induction fuel with
  | zero => intro a h; omega
  | succ fuel ih =>
    intro a hlt
    rw [backtrackF]
    by_cases hcmp : assignment_complete csp a = true
    · rw [if_pos hcmp]; simp
    · rw [if_neg hcmp]
      cases hsel : select_unassigned_variable csp d a with
      | none => simp
      | some var =>
        obtain ⟨hvar, hfree⟩ := select_unassigned_variable_mem hsel
        refine tryVals_ne_none (fun b b2 hb => backtrackF_restore fuel b b2 hb) _ a hfree ?_
        intro val
        refine ih _ ?_
        have := unassignedCount_insert_lt val hvar hfree
        omega

/-- The fuel with which `backtrackF` provably completes. -/
def btFuel (csp : CSP) (a : Assign) : Nat :=
  unassignedCount csp a + 1

theorem backtrackF_isSome (csp : CSP) (d : Domains) (a : Assign) :
    (backtrackF csp d (btFuel csp a) a).isSome = true := by
  rw [Option.isSome_iff_ne_none]
  exact backtrackF_ne_none _ a (by unfold btFuel; omega)

/-- `backtrack(assignment)` together with the final state of the assignment
dictionary. -/
def backtrackPair (csp : CSP) (d : Domains) (a : Assign) : Option Assign × Assign :=
  (backtrackF csp d (btFuel csp a) a).get (backtrackF_isSome csp d a)

/-- The value `backtrack(assignment)` returns. -/
def backtrack (csp : CSP) (d : Domains) (a : Assign) : Option Assign :=
  (backtrackPair csp d a).1

/-- `solve()`: node consistency, then `ac3()` — whose boolean result the
source discards — then `backtrack(dict())` on the propagated domains. -/
def solve (csp : CSP) : Option Assign :=
  backtrack csp (ac3 csp (enforce_node_consistency (initialDomains csp))).1 []

theorem mem_dictKeys : ∀ (l : List Word) (seen : List Word) (w : Word),
    w ∈ dictKeys seen l ↔ (w ∈ l ∧ w ∉ seen) := by
  intro l
  induction l with
  | nil => intro seen w; simp [dictKeys]
  | cons v l ih =>
    intro seen w
    rw [dictKeys]
    by_cases hv : v ∈ seen
    · rw [if_pos hv, ih]
      constructor
      · rintro ⟨h1, h2⟩
        exact ⟨List.mem_cons_of_mem _ h1, h2⟩
      · rintro ⟨h1, h2⟩
        rcases List.mem_cons.mp h1 with rfl | h1
        · exact absurd hv h2
        · exact ⟨h1, h2⟩
    · rw [if_neg hv]
      constructor
      · intro h
        rcases List.mem_cons.mp h with rfl | h
        · exact ⟨List.mem_cons_self _ _, hv⟩
        · have := (ih (v :: seen) w).mp h
          exact ⟨List.mem_cons_of_mem _ this.1,
            fun hc => this.2 (List.mem_cons_of_mem _ hc)⟩
      · rintro ⟨h1, h2⟩
        rcases List.mem_cons.mp h1 with rfl | h1
        · exact List.mem_cons_self _ _
        · by_cases hw : w = v
          · exact hw ▸ List.mem_cons_self _ _
          · exact List.mem_cons_of_mem _ ((ih (v :: seen) w).mpr
              ⟨h1, fun hc => (List.mem_cons.mp hc).elim hw h2⟩)

theorem nodup_dictKeys : ∀ (l : List Word) (seen : List Word),
    (dictKeys seen l).Nodup := by
  intro l
  induction l with
  | nil => intro seen; simp [dictKeys]
  | cons v l ih =>
    intro seen
    rw [dictKeys]
    by_cases hv : v ∈ seen
    · rw [if_pos hv]; exact ih seen
    · rw [if_neg hv]
      refine List.nodup_cons.mpr ⟨?_, ih (v :: seen)⟩
      intro hc
      exact ((mem_dictKeys l (v :: seen) v).mp hc).2 (List.mem_cons_self _ _)

theorem order_domain_values_eq (csp : CSP) (d : Domains) (var : Slot) (a : Assign) :
    order_domain_values csp d var a = dictKeys [] (d var) := by
  unfold order_domain_values
  rw [List.map_map]
  have hcomp : (Prod.fst ∘ fun w => (w, lcvScore csp d var w)) = (id : Word → Word) := rfl
  rw [hcomp, List.map_id]

theorem mem_order_domain_values {csp : CSP} {d : Domains} {var : Slot} {a : Assign}
    {w : Word} :
    w ∈ order_domain_values csp d var a ↔ w ∈ d var := by
  rw [order_domain_values_eq, mem_dictKeys]
  simp

/-- What passing the `consistent` loop guarantees about every processed item:
length match, value not previously seen (hence pairwise-distinct values), and
no neighbor-domain disagreement. -/
theorem consistentAux_spec (csp : CSP) (d : Domains) :
    ∀ (items : Assign) (valueList : List Word),
      consistentAux csp d valueList items = true →
      (∀ p ∈ items, p.1.length = p.2.length) ∧
      (items.map Prod.snd).Nodup ∧
      (∀ p ∈ items, p.2 ∉ valueList) ∧
      (∀ p ∈ items, violatesNeighbors csp d p.1 p.2 = false) := by
  intro items
  induction items with
  | nil => intro valueList _; simp
  | cons kv rest ih =>
    intro valueList h
    obtain ⟨key, value⟩ := kv
    rw [consistentAux] at h
    by_cases h1 : (key.length == value.length) = true
    · rw [if_neg (by simp [h1])] at h
      by_cases h2 : value ∈ valueList
      · rw [if_pos h2] at h; cases h
      · rw [if_neg h2] at h
        by_cases h3 : violatesNeighbors csp d key value = true
        · rw [if_pos h3] at h; cases h
        · rw [if_neg h3] at h
          obtain ⟨hl, hnd, hvl, hvn⟩ := ih (value :: valueList) h
          refine ⟨?_, ?_, ?_, ?_⟩
          · intro p hp
            rcases List.mem_cons.mp hp with rfl | hp
            · simpa using h1
            · exact hl p hp
          · rw [List.map_cons, List.nodup_cons]
            refine ⟨?_, hnd⟩
            intro hc
            rw [List.mem_map] at hc
            obtain ⟨q, hq, hqv⟩ := hc
            exact hvl q hq (hqv ▸ List.mem_cons_self _ _)
          · intro p hp
            rcases List.mem_cons.mp hp with rfl | hp
            · exact h2
            · exact fun hc => hvl p hp (List.mem_cons_of_mem _ hc)
          · intro p hp
            rcases List.mem_cons.mp hp with rfl | hp
            · rwa [Bool.not_eq_true] at h3
            · exact hvn p hp
    · rw [if_pos (by simp [h1])] at h
      cases h

/-- Unpacking `violatesNeighbors = false`: the assigned word agrees with every
word of every neighbor's domain at the overlap indices. -/
theorem violatesNeighbors_false {csp : CSP} {d : Domains} {key : Slot} {value : Word}
    (h : violatesNeighbors csp d key value = false) :
    ∀ n ∈ csp.neighbors key, ∀ i j, csp.overlaps key n = some (i, j) →
      ∀ nv ∈ d n, charAt value i = charAt nv j := by
  intro n hn i j hov nv hnv
  unfold violatesNeighbors at h
  rw [List.any_eq_false] at h
  have h2 := h n hn
  rw [hov] at h2
  simp only at h2
  rw [Bool.not_eq_true, List.any_eq_false] at h2
  have h3 := h2 nv hnv
  simpa using h3

theorem dictInsert_domvals {d : Domains} {a : Assign} {var : Slot} {val : Word}
    (ha : ∀ p ∈ a, p.2 ∈ d p.1) (hval : val ∈ d var) :
    ∀ p ∈ dictInsert a var val, p.2 ∈ d p.1 := by
  intro p hp
  unfold dictInsert at hp
  by_cases hc : containsKey a var = true
  · rw [if_pos hc] at hp
    rw [List.mem_map] at hp
    obtain ⟨q, hq, hqp⟩ := hp
    by_cases hqv : (q.1 == var) = true
    · rw [if_pos hqv] at hqp
      rw [← hqp]
      exact hval
    · rw [if_neg hqv] at hqp
      rw [← hqp]
      exact ha q hq
  · rw [if_neg hc] at hp
    rcases List.mem_append.mp hp with hp | hp
    · exact ha p hp
    · rcases List.mem_cons.mp hp with rfl | hp
      · exact hval
      · cases hp

/-- Soundness of the candidate loop: a successful result is a complete
assignment drawn from the domains that passes `consistent`. -/
theorem tryVals_sound {csp : CSP} {d : Domains} {var : Slot}
    {next : Assign → Option (Option Assign × Assign)}
    (hnextR : ∀ b b2, next b = some (none, b2) → b2 = b)
    (hnextS : ∀ b r b2, (∀ p ∈ b, p.2 ∈ d p.1) → next b = some (some r, b2) →
      assignment_complete csp r = true ∧ (∀ p ∈ r, p.2 ∈ d p.1) ∧
      (consistent csp d r = true ∨ r = b)) :
    ∀ (rest : List Word) (a : Assign), containsKey a var = false →
      (∀ w ∈ rest, w ∈ d var) → (∀ p ∈ a, p.2 ∈ d p.1) →
      ∀ (r a2 : Assign), tryVals csp d var next rest a = some (some r, a2) →
        assignment_complete csp r = true ∧ (∀ p ∈ r, p.2 ∈ d p.1) ∧
        consistent csp d r = true := by
  intro rest
  induction rest with
  | nil =>
    intro a _ _ _ r a2 h
    rw [tryVals] at h
    injection h with h
    rw [Prod.mk.injEq] at h
    exact absurd h.1.symm (by simp)
  | cons val rest ih =>
    intro a hfree hrest ha r a2 h
    rw [tryVals] at h
    by_cases hc : consistent csp d (dictInsert a var val) = true
    · rw [if_pos hc] at h
      have ha1 : ∀ p ∈ dictInsert a var val, p.2 ∈ d p.1 :=
        dictInsert_domvals ha (hrest val (List.mem_cons_self _ _))
      cases hn : next (dictInsert a var val) with
      | none => rw [hn] at h; cases h
      | some q =>
        obtain ⟨o, b2⟩ := q
        cases o with
        | some r2 =>
          rw [hn] at h
          have h' : (some (some r2, b2) : Option (Option Assign × Assign)) =
              some (some r, a2) := h
          injection h' with h'
          rw [Prod.mk.injEq] at h'
          obtain ⟨hor, -⟩ := h'
          have hr2 : r2 = r := by injection hor
          subst hr2
          obtain ⟨hcomp, hdom, hcons⟩ := hnextS _ _ _ ha1 hn
          refine ⟨hcomp, hdom, ?_⟩
          rcases hcons with hcons | rfl
          · exact hcons
          · exact hc
        | none =>
          rw [hn] at h
          have h' : tryVals csp d var next rest (dictErase b2 var) =
              some (some r, a2) := h
          have hb2 : b2 = dictInsert a var val := hnextR _ _ hn
          rw [hb2, erase_insert val hfree] at h'
          exact ih a hfree (fun w hw => hrest w (List.mem_cons_of_mem _ hw)) ha r a2 h'
    · rw [if_neg hc, erase_insert val hfree] at h
      exact ih a hfree (fun w hw => hrest w (List.mem_cons_of_mem _ hw)) ha r a2 h

/-- Soundness of `backtrack`: a returned assignment is complete, drawn from
the domains, and (unless it is the unchanged input) passes `consistent`. -/
theorem backtrackF_sound {csp : CSP} {d : Domains} :
    ∀ (fuel : Nat) (a : Assign), (∀ p ∈ a, p.2 ∈ d p.1) →
      ∀ (r a2 : Assign), backtrackF csp d fuel a = some (some r, a2) →
        assignment_complete csp r = true ∧ (∀ p ∈ r, p.2 ∈ d p.1) ∧
        (consistent csp d r = true ∨ r = a) := by
  intro fuel
  induction fuel with
  | zero => intro a _ r a2 h; cases h
  | succ fuel ih =>
    intro a ha r a2 h
    rw [backtrackF] at h
    by_cases hcmp : assignment_complete csp a = true
    · rw [if_pos hcmp] at h
      injection h with h
      rw [Prod.mk.injEq] at h
      obtain ⟨hor, -⟩ := h
      have har : a = r := by injection hor
      subst har
      exact ⟨hcmp, ha, Or.inr rfl⟩
    · rw [if_neg hcmp] at h
      cases hsel : select_unassigned_variable csp d a with
      | none =>
        rw [hsel] at h
        injection h with h
        rw [Prod.mk.injEq] at h
        exact absurd h.1.symm (by simp)
      | some var =>
        rw [hsel] at h
        have hres := tryVals_sound (fun b b2 hb => backtrackF_restore fuel b b2 hb)
          (fun b r2 b2 hb hcall => ih b hb r2 b2 hcall)
          _ a (select_unassigned_variable_mem hsel).2
          (fun w hw => mem_order_domain_values.mp hw) ha r a2 h
        exact ⟨hres.1, hres.2.1, Or.inl hres.2.2⟩

/-- The solution property as the spec states it: the assignment covers every
variable, each word's length matches its slot, assigned words are pairwise
distinct, and every pair of assigned neighboring slots agrees at its overlap
indices. (Executable check used to state soundness/completeness claims.) -/
def solutionCheck (csp : CSP) (a : Assign) : Bool :=
  assignment_complete csp a &&
  a.all (fun p => p.1.length == p.2.length) &&
  a.all (fun p => a.all (fun q => (p.1 == q.1) || !(p.2 == q.2))) &&
  a.all (fun p => (csp.neighbors p.1).all (fun n =>
    a.all (fun q => !(q.1 == n) ||
      (match csp.overlaps p.1 n with
       | some (i, j) => charAt p.2 i == charAt q.2 j
       | none => true))))

theorem solutionCheck_of_parts (csp : CSP) (d : Domains) (a : Assign)
    (hcomp : assignment_complete csp a = true)
    (hdom : ∀ p ∈ a, p.2 ∈ d p.1)
    (hcons : consistent csp d a = true) : solutionCheck csp a = true := by
  obtain ⟨hlen, hnd, -, hvn⟩ := consistentAux_spec csp d a [] hcons
  unfold solutionCheck
  simp only [Bool.and_eq_true, List.all_eq_true]
  refine ⟨⟨⟨hcomp, ?_⟩, ?_⟩, ?_⟩
  · intro p hp
    simpa using hlen p hp
  · intro p hp q hq
    rw [Bool.or_eq_true]
    by_cases hpq : p.1 = q.1
    · left; simpa using hpq
    · right
      have hne : p.2 ≠ q.2 := by
        intro hc
        exact hpq (congrArg Prod.fst (List.inj_on_of_nodup_map hnd hp hq hc))
      simpa using hne
  · intro p hp n hn q hq
    rw [Bool.or_eq_true]
    by_cases hq1 : q.1 = n
    · right
      cases hov : csp.overlaps p.1 n with
      | none => simp
      | some ij =>
        obtain ⟨i, j⟩ := ij
        simp only
        have := violatesNeighbors_false (hvn p hp) n hn i j hov q.2 (hq1 ▸ hdom q hq)
        simpa using this
    · left
      simpa using hq1

theorem solve_eq_some {csp : CSP} {a : Assign} (h : solve csp = some a) :
    ∃ a2, backtrackF csp ((ac3 csp (enforce_node_consistency (initialDomains csp))).1)
      (btFuel csp ([] : Assign)) [] = some (some a, a2) := by
  unfold solve backtrack backtrackPair at h
  obtain ⟨pr, hpr⟩ := Option.isSome_iff_exists.mp
    (backtrackF_isSome csp ((ac3 csp (enforce_node_consistency (initialDomains csp))).1) [])
  have hget : (backtrackF csp ((ac3 csp (enforce_node_consistency (initialDomains csp))).1)
      (btFuel csp ([] : Assign)) []).get
      (backtrackF_isSome csp ((ac3 csp (enforce_node_consistency (initialDomains csp))).1) []) =
      pr :=
    Option.some_inj.mp (by rw [Option.some_get, hpr])
  rw [hget] at h
  obtain ⟨o, st⟩ := pr
  have ho : o = some a := h
  rw [ho] at hpr
  exact ⟨st, hpr⟩

/- ----------------------------------------------------------------------
Concrete instances used as counterexamples and witnesses.
`xv` and `yv` are two length-2 slots crossing at one cell: index 1 of `xv`
meets index 0 of `yv`.
---------------------------------------------------------------------- -/

def xv : Slot := ⟨0, 0, 2, Direction.across⟩

def yv : Slot := ⟨0, 1, 2, Direction.down⟩

def n1 : Slot := ⟨0, 0, 2, Direction.down⟩

def v3 : Slot := ⟨0, 0, 3, Direction.across⟩

def wAB : Word := ['A', 'B']

def wCD : Word := ['C', 'D']

def wBE : Word := ['B', 'E']

def wDE : Word := ['D', 'E']

def wBC : Word := ['B', 'C']

def wXY : Word := ['X', 'Y']

def crossOverlaps : Slot → Slot → Option (Nat × Nat) :=
  fun u v =>
    if u = xv ∧ v = yv then some (1, 0)
    else if u = yv ∧ v = xv then some (0, 1)
    else none

/-- Two crossing slots, vocabulary {AB, CD, BE, DE}: after propagation the
domains are {AB, CD} for `xv` and {BE, DE} for `yv`, and `xv := AB, yv := BE`
is a satisfying assignment within them. -/
def cspC3 : CSP := ⟨[xv, yv], [wAB, wCD, wBE, wDE], crossOverlaps⟩

/-- The domain store of `cspC3` after node consistency and `ac3`. -/
def dPostC3 : Domains := (ac3 cspC3 (enforce_node_consistency (initialDomains cspC3))).1

/-- The satisfying assignment inside `dPostC3` that the search misses. -/
def aC3 : Assign := [(xv, wAB), (yv, wBE)]

/-- Two crossing slots, vocabulary {AB, BC}: solvable, and solved. -/
def cspOK : CSP := ⟨[xv, yv], [wAB, wBC], crossOverlaps⟩

/-- Two crossing slots, vocabulary {AB, CD}: propagation empties `xv`'s
domain, so `ac3` reports failure. -/
def cspC1 : CSP := ⟨[xv, yv], [wAB, wCD], crossOverlaps⟩

/-- The domain store of `cspC1` after node consistency. -/
def d1C1 : Domains := enforce_node_consistency (initialDomains cspC1)

/-- A single length-3 slot with no overlaps and a vocabulary with no
length-3 word: node consistency empties its domain before `ac3` runs. -/
def cspC7 : CSP := ⟨[v3], [wAB], fun _ _ => none⟩

/-- The (empty) domain store of `cspC7` after node consistency. -/
def dC7 : Domains := enforce_node_consistency (initialDomains cspC7)

/-- `xv` with two neighbors `n1` (overlap at (0,0)) and `yv` (overlap at
(1,0)); used to score candidates of `xv`. -/
def csp4 : CSP :=
  ⟨[xv, n1, yv], [],
   fun u v =>
     if u = xv ∧ v = n1 then some (0, 0)
     else if u = n1 ∧ v = xv then some (0, 0)
     else if u = xv ∧ v = yv then some (1, 0)
     else if u = yv ∧ v = xv then some (0, 1)
     else none⟩

/-- Domains for `csp4`: `wAB` appears in both neighbors' domains (score 2),
`wXY` in neither (score 0). -/
def d4 : Domains :=
  fun v =>
    if v = xv then [wAB, wXY]
    else if v = n1 then [wAB, wCD]
    else if v = yv then [wAB]
    else []

/- ----------------------------------------------------------------------
The claims.
---------------------------------------------------------------------- -/

/-- C1: the claim states that when AC-3 propagation reports failure, `solve()`
returns the no-solution signal immediately without invoking backtracking. The
code discards `ac3`'s boolean: on `cspC1` propagation fails (first conjunct),
yet `solve` is by definition the result of running `backtrack` on the pruned
domains (second conjunct); the search then exhausts and yields `none` (third
conjunct), so the "no backtracking" part of the claim is false of the code. -/
theorem solve_ignores_ac3_failure :
    (ac3 cspC1 (enforce_node_consistency (initialDomains cspC1))).2 = false ∧
    solve cspC1 =
      backtrack cspC1 (ac3 cspC1 (enforce_node_consistency (initialDomains cspC1))).1 [] ∧
    solve cspC1 = none :=
  ⟨by decide, rfl, by decide⟩

/-- C2: the claim states that `consistent` compares assigned values of
neighboring variables to each other, imposes no constraint for unassigned
neighbors, and never consults domains. The code instead requires the assigned
word to agree with *every* word in each neighbor's domain: the complete
assignment `aC3` satisfies every constraint (first two conjuncts) yet is
rejected (third conjunct), and even the partial assignment `{xv := AB}`,
which assigns no neighbor pair at all, is rejected (fourth conjunct). -/
theorem consistent_consults_domains :
    solutionCheck cspC3 aC3 = true ∧
    (∀ p ∈ aC3, p.2 ∈ dPostC3 p.1) ∧
    consistent cspC3 dPostC3 aC3 = false ∧
    consistent cspC3 dPostC3 [(xv, wAB)] = false := by
  decide

/-- C3: the claim states that whenever the post-propagation domains still
contain a complete satisfying assignment, `solve()` returns one. On `cspC3`
the assignment `aC3` is satisfying (first conjunct) and drawn from the
post-propagation domains (second conjunct), yet `solve` returns `none`
(third conjunct), because `consistent` rejects every candidate. -/
theorem backtracking_misses_solution :
    solutionCheck cspC3 aC3 = true ∧
    (∀ p ∈ aC3, p.2 ∈ dPostC3 p.1) ∧
    solve cspC3 = none := by
  decide

/-- C4: the claim states that `order_domain_values` returns the candidates
sorted ascending by their least-constraining score. The code computes the
scores but discards the result of `sorted(...)` and returns the dict in
insertion order: on `csp4`/`d4` the returned sequence is `[wAB, wXY]` though
`wAB` scores 2 and `wXY` scores 0, so the sequence is not sorted ascending. -/
theorem order_domain_values_not_sorted :
    order_domain_values csp4 d4 xv [] = [wAB, wXY] ∧
    lcvScore csp4 d4 xv wAB = 2 ∧
    lcvScore csp4 d4 xv wXY = 0 ∧
    ¬ (order_domain_values csp4 d4 xv []).Pairwise
        (fun w1 w2 => lcvScore csp4 d4 xv w1 ≤ lcvScore csp4 d4 xv w2) := by
  decide

/-- C5: backtracking search is sound — any assignment `solve()` returns
(rather than `none`) covers every variable, gives every slot a word of its
length, assigns pairwise-distinct words, and agrees at the overlap indices of
every pair of assigned neighboring slots. -/
theorem solve_returns_solution (csp : CSP) (a : Assign) (h : solve csp = some a) :
    solutionCheck csp a = true := by
  obtain ⟨a2, hbt⟩ := solve_eq_some h
  obtain ⟨hcomp, hdom, hcons⟩ :=
    backtrackF_sound (btFuel csp ([] : Assign)) [] (by intro p hp; cases hp) a a2 hbt
  rcases hcons with hcons | rfl
  · exact solutionCheck_of_parts csp _ a hcomp hdom hcons
  · exact solutionCheck_of_parts csp _ [] hcomp hdom rfl

/-- Witness for C5: on the solvable instance `cspOK`, `solve` returns
`[(xv, AB), (yv, BC)]`, and the theorem yields its solution property. -/
theorem solve_returns_solution_witness :
    solutionCheck cspOK [(xv, wAB), (yv, wBC)] = true :=
  solve_returns_solution cspOK [(xv, wAB), (yv, wBC)] (by decide)

/-- C6: for distinct variables `x`, `y`: if they do not overlap, `revise`
returns false and leaves the domains untouched; otherwise it keeps in
`domain[x]` exactly the words supported by some word of `domain[y]` at the
overlap indices, returns true iff some word was removed, and leaves every
other variable's domain (in particular `domain[y]`) unchanged. -/
theorem revise_spec (csp : CSP) (d : Domains) (x y : Slot) (_hxy : x ≠ y) :
    (csp.overlaps x y = none → revise csp d x y = (d, false)) ∧
    (∀ i j, csp.overlaps x y = some (i, j) →
      (∀ w, w ∈ (revise csp d x y).1 x ↔
        (w ∈ d x ∧ ∃ w2 ∈ d y, charAt w i = charAt w2 j)) ∧
      ((revise csp d x y).2 = true ↔
        ∃ w ∈ d x, ∀ w2 ∈ d y, charAt w i ≠ charAt w2 j) ∧
      (∀ v, v ≠ x → (revise csp d x y).1 v = d v)) := by
  constructor
  · intro h
    unfold revise
    rw [h]
  · intro i j h
    unfold revise
    rw [h]
    refine ⟨?_, ?_, ?_⟩
    · intro w
      show w ∈ updateDom d x ((d x).filter (fun wx => hasSupport d y i j wx)) x ↔ _
      rw [updateDom_self, List.mem_filter]
      unfold hasSupport
      rw [List.any_eq_true]
      simp [beq_iff_eq]
    · show ((d x).any (fun wx => !(hasSupport d y i j wx))) = true ↔ _
      rw [List.any_eq_true]
      unfold hasSupport
      constructor
      · rintro ⟨w, hw, hns⟩
        refine ⟨w, hw, ?_⟩
        rw [Bool.not_eq_true', List.any_eq_false] at hns
        intro w2 hw2
        simpa using hns w2 hw2
      · rintro ⟨w, hw, hns⟩
        refine ⟨w, hw, ?_⟩
        rw [Bool.not_eq_true', List.any_eq_false]
        intro w2 hw2
        simpa using hns w2 hw2
    · intro v hv
      exact updateDom_other d x _ hv

/-- Witness for C6: on `cspC1` after node consistency, revising `xv` against
`yv` removes words (every candidate of `xv` is unsupported) and leaves
`yv`'s domain unchanged. -/
theorem revise_spec_witness :
    (revise cspC1 d1C1 xv yv).2 = true ∧ (revise cspC1 d1C1 xv yv).1 yv = d1C1 yv := by
  have h := (revise_spec cspC1 d1C1 xv yv (by decide)).2 1 0 (by decide)
  exact ⟨h.2.1.mpr (by decide), h.2.2 yv (by decide)⟩

/-- C7: the claim states that `ac3()` returns false iff some domain became
empty during propagation, and that a true result means every domain is
non-empty (and arc-consistent). The code only checks emptiness after a
revision removed something, so a domain that is already empty when `ac3`
starts is never detected: on `cspC7` (whose only slot has an empty
post-node-consistency domain and no arcs) `ac3` returns true while the
domain is empty. -/
theorem ac3_true_with_empty_domain :
    (ac3 cspC7 dC7).2 = true ∧ (ac3 cspC7 dC7).1 v3 = [] ∧ v3 ∈ cspC7.vars := by
  decide

/-- C8: after `enforce_node_consistency`, each variable's domain holds
exactly the words of its previous domain whose length equals the variable's
length. -/
theorem enforce_node_consistency_spec (d : Domains) (v : Slot) (w : Word) :
    w ∈ enforce_node_consistency d v ↔ (w ∈ d v ∧ w.length = v.length) := by
  unfold enforce_node_consistency
  rw [List.mem_filter]
  constructor
  · rintro ⟨h1, h2⟩
    exact ⟨h1, (by simpa using h2 : v.length = w.length).symm⟩
  · rintro ⟨h1, h2⟩
    exact ⟨h1, by simpa using h2.symm⟩

/-- C9: whenever `backtrack(assignment)` returns the no-solution signal, the
assignment dictionary is restored to exactly its state before the call —
every tentatively assigned variable has been removed again. -/
theorem backtrack_restores_assignment (csp : CSP) (d : Domains) (a : Assign)
    (h : (backtrackPair csp d a).1 = none) : (backtrackPair csp d a).2 = a := by
  unfold backtrackPair at h ⊢
  obtain ⟨pr, hpr⟩ := Option.isSome_iff_exists.mp (backtrackF_isSome csp d a)
  have hget : (backtrackF csp d (btFuel csp a) a).get (backtrackF_isSome csp d a) = pr :=
    Option.some_inj.mp (by rw [Option.some_get, hpr])
  rw [hget] at h ⊢
  obtain ⟨o, st⟩ := pr
  have ho : o = none := h
  rw [ho] at hpr
  exact backtrackF_restore _ a st hpr

/-- Witness for C9: on `cspC3`'s post-propagation domains the search fails,
and the dictionary comes back exactly as it went in (empty). -/
theorem backtrack_restores_assignment_witness :
    (backtrackPair cspC3 dPostC3 []).2 = [] :=
  backtrack_restores_assignment cspC3 dPostC3 [] (by decide)

/-- C10: `order_domain_values` returns exactly the words of `domain[var]` —
same membership, no duplicates — so the backtracking loop iterating over the
result tries every candidate of the selected variable. -/
theorem order_domain_values_complete (csp : CSP) (d : Domains) (var : Slot) (a : Assign) :
    (∀ w, w ∈ order_domain_values csp d var a ↔ w ∈ d var) ∧
    (order_domain_values csp d var a).Nodup := by
  refine ⟨fun w => mem_order_domain_values, ?_⟩
  rw [order_domain_values_eq]
  exact nodup_dictKeys _ _

end CrosswordCSP
